import Mathlib

/-!
Verification of the replidraw-netlify server core.

The repository ships `src/backend/db.ts` (Postgres executor / transaction
wrapper) together with the unit tests of `processFrame`, the frame
processor of `src/backend/process-frame.ts`.  The processor itself is not
part of the sources, so it is modelled here from the specification,
constrained by the in-repo `processFrame` test expectations.  The
transaction wrapper and executor are embedded directly from
`src/backend/db.ts`.
-/

namespace Replidraw

abbrev Key := String
abbrev ClientID := String
abbrev Version := Nat

/-- Per-client sync cursor (spec §3 ClientRecord, `src` test `clientRecord`):
`lastMutationID` is the highest applied mutation id, `lastVersion` the
GlobalVersion at which the record was last written (`null` until then). -/
structure ClientRecord where
  lastMutationID : Nat
  lastVersion : Option Version
  deriving Repr, DecidableEq

/-- Spec §3 ClientMutation: `{clientID, id, name, args, timestamp}`;
`args` is kept abstract (`A` stands for the JSON argument payload). -/
structure ClientMutation (A : Type) where
  clientID : ClientID
  id : Nat
  name : String
  args : A
  timestamp : Nat
  deriving Repr, DecidableEq

/-- A `put`/`del` write issued by a mutator through the transaction-scoped
storage handle; the same shape serves as a patch operation
(spec §3 PatchOp `{op: put|del, key, value?}`). -/
inductive WriteOp (V : Type) where
  | put (key : Key) (value : V)
  | del (key : Key)
  deriving Repr, DecidableEq

/-- A coalesced pending change for one key inside the frame's patch map. -/
inductive Pending (V : Type) where
  | put (value : V)
  | del
  deriving Repr, DecidableEq

/-- A stored user value: `{value, version}` per spec §3 UserValue, with
deletion kept logical (a tombstone carrying the deleting version). -/
inductive StoredValue (V : Type) where
  | live (value : V) (version : Version)
  | tombstone (version : Version)
  deriving Repr, DecidableEq

/-- The version stamped on a stored user value. -/
def StoredValue.version : StoredValue V → Version
  | .live _ ver => ver
  | .tombstone ver => ver

/-- Association-list lookup (first match wins). -/
def alistLookup [DecidableEq κ] (k : κ) : List (κ × α) → Option α
  | [] => none
  | (k', v) :: rest => if k' = k then some v else alistLookup k rest

/-- Association-list update: replaces the entry in place if the key is
present (keeping its position, i.e. order of first touch), appends
otherwise. -/
def alistUpdate [DecidableEq κ] (k : κ) (v : α) : List (κ × α) → List (κ × α)
  | [] => [(k, v)]
  | (k', v') :: rest =>
      if k' = k then (k, v) :: rest else (k', v') :: alistUpdate k v rest

/-- A mutator (spec §4.4): given its JSON args and a read view of the user
values it returns the ordered `put`/`del` calls it makes on the
transaction-scoped storage handle. -/
def Mutator (A V : Type) := A → (Key → Option V) → List (WriteOp V)

/-- The mutator registry: mutation name to mutator function. -/
def MutatorMap (A V : Type) := List (String × Mutator A V)

/-- The storage state a frame runs against: the global version (absent on a
fresh store), the client records and the user values, all living in the
store's flat key namespace. -/
structure StorageState (V : Type) where
  version : Option Version
  clientRecords : List (ClientID × ClientRecord)
  userValues : List (Key × StoredValue V)
  deriving Repr, DecidableEq

/-- The read view a mutator sees: pending writes of the current frame
overlaid on the stored user values. -/
def readView (base : List (Key × StoredValue V))
    (patch : List (Key × Pending V)) (k : Key) : Option V :=
  match alistLookup k patch with
  | some (.put v) => some v
  | some .del => none
  | none =>
    match alistLookup k base with
    | some (.live v _) => some v
    | some (.tombstone _) => none
    | none => none

/-- Loop accumulator of the frame processor: the coalesced patch map
(key to latest pending change, order of first touch) and the touched
client records (clientID to new lastMutationID). -/
structure LoopAcc (V : Type) where
  patch : List (Key × Pending V)
  touched : List (ClientID × Nat)
  deriving Repr, DecidableEq

/-- The lastMutationID the processor sees for a client mid-frame: the
touched overlay if present, else the stored record, else the lazily
created default `{lastMutationID: 0, lastVersion: null}`. -/
def effectiveLMID (s : StorageState V) (touched : List (ClientID × Nat))
    (c : ClientID) : Nat :=
  match alistLookup c touched with
  | some i => i
  | none => ((alistLookup c s.clientRecords).getD ⟨0, none⟩).lastMutationID

/-- Fold a mutator's write list into the coalesced patch map
(last-write-wins per key, position of first touch kept). -/
def applyWrites : List (Key × Pending V) → List (WriteOp V) → List (Key × Pending V)
  | patch, [] => patch
  | patch, .put k v :: ws => applyWrites (alistUpdate k (.put v) patch) ws
  | patch, .del k :: ws => applyWrites (alistUpdate k .del patch) ws

/-- Modelled from the spec: one consumed in-window mutation (spec §4.3
step 3, inner branch).  A stale mutation (`timestamp < startTime`), a
duplicate (`id <= record.lastMutationID`) and an unknown mutation name are
all skipped with no effect; otherwise the mutator runs against the read
view, its writes are coalesced into the patch map and the client's
touched lastMutationID becomes the mutation id. -/
def consumeStep (mutators : MutatorMap A V) (s : StorageState V)
    (startTime : Nat) (m : ClientMutation A) (acc : LoopAcc V) : LoopAcc V :=
  if m.timestamp < startTime then acc
  else if m.id ≤ effectiveLMID s acc.touched m.clientID then acc
  else
    match alistLookup m.name mutators with
    | none => acc
    | some f =>
        ⟨applyWrites acc.patch (f m.args (readView s.userValues acc.patch)),
         alistUpdate m.clientID m.id acc.touched⟩

/-- Modelled from the spec: the frame processor's drain loop (spec §4.3
step 3).  The peekable source is a list: `peek` is the head, `next` drops
it.  A head with `timestamp >= endTime` stops the loop without being
consumed; any other head is consumed and handled by `consumeStep`.
Returns the final accumulator and the un-consumed remainder of the
source. -/
def consumeLoop (mutators : MutatorMap A V) (s : StorageState V)
    (startTime endTime : Nat) :
    List (ClientMutation A) → LoopAcc V → LoopAcc V × List (ClientMutation A)
  | [], acc => (acc, [])
  | m :: rest, acc =>
      if endTime ≤ m.timestamp then (acc, m :: rest)
      else consumeLoop mutators s startTime endTime rest
        (consumeStep mutators s startTime m acc)

/-- `true` iff the loop applied no mutation: patch map empty and no client
record mutationID changed (spec §4.3 step 4). -/
def isNoop : LoopAcc V → Bool
  | ⟨[], []⟩ => true
  | _ => false

/-- Build the patch list from the coalesced map in order of first touch
(spec §4.3 step 6). -/
def buildPatch : List (Key × Pending V) → List (WriteOp V)
  | [] => []
  | (k, .put v) :: rest => .put k v :: buildPatch rest
  | (k, .del) :: rest => .del k :: buildPatch rest

/-- Write every coalesced user-value change with `version = cookie`
(spec §4.3 step 5); a `del` leaves a tombstone at the cookie. -/
def commitUserValues (cookie : Version) :
    List (Key × Pending V) → List (Key × StoredValue V) → List (Key × StoredValue V)
  | [], uv => uv
  | (k, .put v) :: rest, uv =>
      commitUserValues cookie rest (alistUpdate k (.live v cookie) uv)
  | (k, .del) :: rest, uv =>
      commitUserValues cookie rest (alistUpdate k (.tombstone cookie) uv)

/-- Write every touched client's updated record
`{lastMutationID, lastVersion: cookie}` (spec §4.3 step 5). -/
def commitTouched (cookie : Version) :
    List (ClientID × Nat) → List (ClientID × ClientRecord) → List (ClientID × ClientRecord)
  | [], recs => recs
  | (c, i) :: rest, recs =>
      commitTouched cookie rest (alistUpdate c ⟨i, some cookie⟩ recs)

/-- Stamp `lastVersion = cookie` on every connected client's record.  The
in-repo `processFrame` test `one mutation, two clients` pins this: the
non-mutating connected client `c2` ends at `clientRecord(endVersion, 7)`,
so connected clients' records are rewritten too, not only touched ones. -/
def commitConnected (cookie : Version) :
    List ClientID → List (ClientID × ClientRecord) → List (ClientID × ClientRecord)
  | [], recs => recs
  | c :: cs, recs =>
      commitConnected cookie cs
        (alistUpdate c
          { (alistLookup c recs).getD ⟨0, none⟩ with lastVersion := some cookie }
          recs)

/-- The poke body broadcast to one connected client (spec §3
ClientPokeBody). -/
structure Poke (V : Type) where
  baseCookie : Version
  cookie : Version
  lastMutationID : Nat
  patch : List (WriteOp V)
  timestamp : Nat
  deriving Repr, DecidableEq

structure ClientPokeBody (V : Type) where
  clientID : ClientID
  poke : Poke V
  deriving Repr, DecidableEq

/-- Result of one frame: the pokes, the post-frame storage state and the
un-consumed remainder of the mutation source. -/
structure FrameResult (A V : Type) where
  pokes : List (ClientPokeBody V)
  state : StorageState V
  remaining : List (ClientMutation A)
  deriving Repr, DecidableEq

/-- A client's record as re-read for its poke: default
`{lastMutationID: 0, lastVersion: null}` when unseen. -/
def recLookup (recs : List (ClientID × ClientRecord)) (c : ClientID) : ClientRecord :=
  (alistLookup c recs).getD ⟨0, none⟩

/-- Modelled from the spec: steps 4-7 of the frame processor after the
drain loop.  If no mutation was applied: no writes at all and an empty
poke list.  Otherwise `cookie = baseCookie + 1`, the coalesced user
values, the touched records and the connected records are committed, the
version is set to `cookie`, and every connected client gets a poke with
the shared `baseCookie`/`cookie`/patch, `timestamp = startTime` and its
own post-frame `lastMutationID`. -/
def frameFinish (clients : List ClientID) (s : StorageState V) (startTime : Nat)
    (out : LoopAcc V × List (ClientMutation A)) : FrameResult A V :=
  if isNoop out.1 then ⟨[], s, out.2⟩
  else
    let baseCookie := s.version.getD 0
    let cookie := baseCookie + 1
    let uv := commitUserValues cookie out.1.patch s.userValues
    let recs := commitConnected cookie clients
      (commitTouched cookie out.1.touched s.clientRecords)
    let patch := buildPatch out.1.patch
    ⟨clients.map (fun c =>
        ⟨c, ⟨baseCookie, cookie, (recLookup recs c).lastMutationID, patch, startTime⟩⟩),
     ⟨some cookie, recs, uv⟩,
     out.2⟩

/-- Modelled from the spec: `processFrame` of
`src/backend/process-frame.ts` (absent from the sources; only its tests
are in-repo).  Spec §4.3: inside one storage transaction, drain the
mutation source over the window `[startTime, endTime)` and commit /
broadcast the result.  The logging sink is omitted (diagnostics only). -/
def processFrame (mutators : MutatorMap A V) (clients : List ClientID)
    (s : StorageState V) (muts : List (ClientMutation A))
    (startTime endTime : Nat) : FrameResult A V :=
  frameFinish clients s startTime
    (consumeLoop mutators s startTime endTime muts ⟨[], []⟩)

/-- The key a patch operation touches. -/
def WriteOp.key : WriteOp V → Key
  | .put k _ => k
  | .del k => k

/-! Concrete mutators mirroring the registry of the in-repo
`processFrame` test: `put {key, value}` and `del {key}`. -/

/-- Argument payloads of the test registry's mutations. -/
inductive MArgs (V : Type) where
  | putArgs (key : Key) (value : V)
  | delArgs (key : Key)
  deriving Repr, DecidableEq

/-- The test registry's `put` mutator: `tx.put(key, value)`. -/
def putMutator : Mutator (MArgs V) V := fun a _ =>
  match a with
  | .putArgs k v => [.put k v]
  | .delArgs _ => []

/-- The test registry's `del` mutator: `tx.del(key)`. -/
def delMutator : Mutator (MArgs V) V := fun a _ =>
  match a with
  | .delArgs k => [.del k]
  | .putArgs _ _ => []

/-- The in-repo test's mutator registry. -/
def testMutators : MutatorMap (MArgs V) V :=
  [("put", putMutator), ("del", delMutator)]

/-- A `put {key, value}` client mutation, as built by the test's
`clientMutation` helper. -/
def putMutation (c : ClientID) (i : Nat) (k : Key) (v : V) (t : Nat) :
    ClientMutation (MArgs V) :=
  ⟨c, i, "put", .putArgs k v, t⟩

/-- The initial store of the in-repo `processFrame` test: version 1 and
records `c1 : {lastMutationID 1, lastVersion null}`,
`c2 : {lastMutationID 7, lastVersion 1}`. -/
def testState : StorageState String :=
  ⟨some 1, [("c1", ⟨1, none⟩), ("c2", ⟨7, some 1⟩)], []⟩

/-- A run of `put` mutations from one client to one key: each element
`(id, value, timestamp)` becomes `put {key, value}` with that id and
timestamp. -/
def putRun (c : ClientID) (k : Key) : List (Nat × V × Nat) → List (ClientMutation (MArgs V))
  | [] => []
  | (i, v, t) :: rest => putMutation c i k v t :: putRun c k rest

/-! Embedding of `src/backend/db.ts`: the scoped executor and the
transaction wrapper. -/

/-- A value thrown by the database layer: either the original driver
failure object or a newly constructed `Error` carrying only a message
(`new Error(...)` in `withExecutor`). -/
inductive Thrown (E : Type) where
  | original (e : E)
  | wrapped (message : String)
  deriving Repr, DecidableEq

/-- `src/backend/db.ts:34-42`: the scoped executor built by
`withExecutor`.  `query` models `client.query(sql, params)` (returning a
result or throwing), `errToString` models JavaScript's `e.toString()` on
the thrown value.  On failure the executor throws
`new Error("Error executing SQL: " ++ sql ++ ": " ++ e.toString())`. -/
def executor (query : String → P → Except (Thrown E) QR)
    (errToString : Thrown E → String) (sql : String) (params : P) :
    Except (Thrown E) QR :=
  match query sql params with
  | .ok r => .ok r
  | .error e =>
      .error (.wrapped ("Error executing SQL: " ++ sql ++ ": " ++ errToString e))

/-- A Postgres connection as the transaction wrapper sees it: the
committed state and, while a transaction is in progress, the uncommitted
working state. -/
structure PgConn (S : Type) where
  committed : S
  txn : Option S
  deriving Repr, DecidableEq

/-- `begin`: start a transaction from the committed state. -/
def beginTxn (c : PgConn S) : PgConn S :=
  ⟨c.committed, some c.committed⟩

/-- `commit`: make the transaction's working state the committed state. -/
def commitTxn (c : PgConn S) : PgConn S :=
  match c.txn with
  | some s => ⟨s, none⟩
  | none => c

/-- `rollback`: discard the transaction's working state. -/
def rollbackTxn (c : PgConn S) : PgConn S :=
  ⟨c.committed, none⟩

/-- `src/backend/db.ts:65-78` `transactWithExecutor`: `begin`; run the
body against the transaction's working state; on success `commit` the
body's final state and return its result; on failure `rollback` and
re-throw the original error.  The body is modelled as a function from the
working state to either an error or a result with the updated working
state. -/
def transactWithExecutor (body : S → Except E (R × S)) (c : PgConn S) :
    Except E R × PgConn S :=
  let c1 := beginTxn c
  match body c.committed with
  | .ok (r, s) => (.ok r, commitTxn ⟨c1.committed, some s⟩)
  | .error e => (.error e, rollbackTxn c1)

/-! ### Association-list lemmas -/

theorem alistLookup_update [DecidableEq κ] (k k' : κ) (v : α) (l : List (κ × α)) :
    alistLookup k' (alistUpdate k v l) =
      if k = k' then some v else alistLookup k' l := by
  induction l with
  | nil => simp [alistLookup, alistUpdate]
  | cons hd tl ih =>
    obtain ⟨a, b⟩ := hd
    by_cases ha : a = k
    · subst ha
      simp only [alistUpdate, if_pos rfl, alistLookup]
      by_cases hk : a = k'
      · subst hk; simp
      · simp [hk]
    · simp only [alistUpdate, if_neg ha, alistLookup]
      by_cases hk : a = k'
      · subst hk
        have h2 : ¬ k = a := fun h => ha h.symm
        simp [h2]
      · simp [hk, ih]

theorem alistLookup_update_self [DecidableEq κ] (k : κ) (v : α) (l : List (κ × α)) :
    alistLookup k (alistUpdate k v l) = some v := by
  simp [alistLookup_update]

theorem alistLookup_update_ne [DecidableEq κ] {k k' : κ} (h : k ≠ k') (v : α)
    (l : List (κ × α)) :
    alistLookup k' (alistUpdate k v l) = alistLookup k' l := by
  simp [alistLookup_update, h]

theorem alistUpdate_map_fst [DecidableEq κ] (k : κ) (v : α) (l : List (κ × α)) :
    (alistUpdate k v l).map Prod.fst =
      if k ∈ l.map Prod.fst then l.map Prod.fst else l.map Prod.fst ++ [k] := by
  induction l with
  | nil => simp [alistUpdate]
  | cons hd tl ih =>
    obtain ⟨a, b⟩ := hd
    by_cases ha : a = k
    · subst ha; simp [alistUpdate]
    · simp only [alistUpdate, if_neg ha, List.map_cons, ih]
      have ha' : ¬ k = a := fun h => ha h.symm
      by_cases hmem : k ∈ tl.map Prod.fst
      · simp [hmem, ha']
      · simp [hmem, ha']

theorem alistUpdate_nodup_keys [DecidableEq κ] (k : κ) (v : α) (l : List (κ × α))
    (h : (l.map Prod.fst).Nodup) : ((alistUpdate k v l).map Prod.fst).Nodup := by
  rw [alistUpdate_map_fst]
  by_cases hmem : k ∈ l.map Prod.fst
  · simpa [hmem]
  · refine (if_neg hmem) ▸ List.Nodup.append h (List.nodup_singleton k) ?_
    intro a ha hak
    have : a = k := by simpa using hak
    exact hmem (this ▸ ha)

/-! ### Drain-loop lemmas -/

theorem consumeLoop_nil (mutators : MutatorMap A V) (s : StorageState V)
    (st et : Nat) (acc : LoopAcc V) :
    consumeLoop mutators s st et [] acc = (acc, []) := rfl

theorem consumeLoop_stop (mutators : MutatorMap A V) (s : StorageState V)
    (st et : Nat) (m : ClientMutation A) (rest : List (ClientMutation A))
    (acc : LoopAcc V) (h : et ≤ m.timestamp) :
    consumeLoop mutators s st et (m :: rest) acc = (acc, m :: rest) := by
  simp [consumeLoop, h]

theorem consumeLoop_consume (mutators : MutatorMap A V) (s : StorageState V)
    (st et : Nat) (m : ClientMutation A) (rest : List (ClientMutation A))
    (acc : LoopAcc V) (h : m.timestamp < et) :
    consumeLoop mutators s st et (m :: rest) acc =
      consumeLoop mutators s st et rest (consumeStep mutators s st m acc) := by
  simp [consumeLoop, Nat.not_le.mpr h]

theorem consumeStep_stale (mutators : MutatorMap A V) (s : StorageState V)
    (st : Nat) (m : ClientMutation A) (acc : LoopAcc V)
    (h : m.timestamp < st) :
    consumeStep mutators s st m acc = acc := by
  simp [consumeStep, h]

theorem consumeStep_dup (mutators : MutatorMap A V) (s : StorageState V)
    (st : Nat) (m : ClientMutation A) (acc : LoopAcc V)
    (h : m.id ≤ effectiveLMID s acc.touched m.clientID) :
    consumeStep mutators s st m acc = acc := by
  unfold consumeStep
  by_cases hst : m.timestamp < st
  · simp [hst]
  · simp [hst, h]

theorem consumeStep_idem (mutators : MutatorMap A V) (s : StorageState V)
    (st : Nat) (m : ClientMutation A) (acc : LoopAcc V) :
    consumeStep mutators s st m (consumeStep mutators s st m acc) =
      consumeStep mutators s st m acc := by
  by_cases hst : m.timestamp < st
  · rw [consumeStep_stale mutators s st m _ hst]
  · by_cases hdup : m.id ≤ effectiveLMID s acc.touched m.clientID
    · rw [consumeStep_dup mutators s st m acc hdup,
        consumeStep_dup mutators s st m acc hdup]
    · unfold consumeStep
      simp only [if_neg hst, if_neg hdup]
      cases hname : alistLookup m.name mutators with
      | none => simp [hname, if_neg hst, if_neg hdup]
      | some f =>
        simp only [hname]
        have heff : effectiveLMID s (alistUpdate m.clientID m.id acc.touched)
            m.clientID = m.id := by
          simp [effectiveLMID, alistLookup_update_self]
        simp [if_neg hst, heff]

theorem consumeLoop_append (mutators : MutatorMap A V) (s : StorageState V)
    (st et : Nat) (l₁ l₂ : List (ClientMutation A)) (acc : LoopAcc V)
    (h : ∀ p ∈ l₁, p.timestamp < et) :
    consumeLoop mutators s st et (l₁ ++ l₂) acc =
      consumeLoop mutators s st et l₂ (consumeLoop mutators s st et l₁ acc).1 := by
  induction l₁ generalizing acc with
  | nil => simp [consumeLoop_nil]
  | cons m rest ih =>
    have hm : m.timestamp < et := h m (by simp)
    rw [List.cons_append, consumeLoop_consume mutators s st et m _ acc hm,
      consumeLoop_consume mutators s st et m rest acc hm]
    exact ih _ (fun p hp => h p (by simp [hp]))

theorem applyWrites_nodup (p : List (Key × Pending V)) (ws : List (WriteOp V))
    (h : (p.map Prod.fst).Nodup) :
    ((applyWrites p ws).map Prod.fst).Nodup := by
  induction ws generalizing p with
  | nil => simpa [applyWrites]
  | cons w rest ihw =>
    cases w with
    | put k v => exact ihw _ (alistUpdate_nodup_keys k _ _ h)
    | del k => exact ihw _ (alistUpdate_nodup_keys k _ _ h)

theorem consumeStep_patch_nodup (mutators : MutatorMap A V) (s : StorageState V)
    (st : Nat) (m : ClientMutation A) (acc : LoopAcc V)
    (h : (acc.patch.map Prod.fst).Nodup) :
    (((consumeStep mutators s st m acc).patch).map Prod.fst).Nodup := by
  unfold consumeStep
  by_cases hst : m.timestamp < st
  · simpa [hst]
  · by_cases hdup : m.id ≤ effectiveLMID s acc.touched m.clientID
    · simpa [hst, hdup]
    · simp only [if_neg hst, if_neg hdup]
      cases hname : alistLookup m.name mutators with
      | none => simpa
      | some f => exact applyWrites_nodup acc.patch _ h

theorem consumeLoop_patch_nodup (mutators : MutatorMap A V) (s : StorageState V)
    (st et : Nat) (l : List (ClientMutation A)) (acc : LoopAcc V)
    (h : (acc.patch.map Prod.fst).Nodup) :
    ((((consumeLoop mutators s st et l acc).1).patch).map Prod.fst).Nodup := by
  induction l generalizing acc with
  | nil => simpa [consumeLoop_nil]
  | cons m rest ih =>
    by_cases hm : et ≤ m.timestamp
    · simpa [consumeLoop_stop mutators s st et m rest acc hm]
    · rw [consumeLoop_consume mutators s st et m rest acc (Nat.not_le.mp hm)]
      exact ih _ (consumeStep_patch_nodup mutators s st m acc h)

theorem effectiveLMID_consumeStep_le (mutators : MutatorMap A V)
    (s : StorageState V) (st : Nat) (m : ClientMutation A) (acc : LoopAcc V)
    (c : ClientID) :
    effectiveLMID s acc.touched c ≤
      effectiveLMID s (consumeStep mutators s st m acc).touched c := by
  unfold consumeStep
  by_cases hst : m.timestamp < st
  · simp [hst]
  · by_cases hdup : m.id ≤ effectiveLMID s acc.touched m.clientID
    · simp [hst, hdup]
    · simp only [if_neg hst, if_neg hdup]
      cases hname : alistLookup m.name mutators with
      | none => simp
      | some f =>
        simp only [effectiveLMID]
        by_cases hc : m.clientID = c
        · subst hc
          rw [alistLookup_update_self]
          cases hl : alistLookup m.clientID acc.touched with
          | none =>
            simp only [effectiveLMID, hl] at hdup
            exact Nat.le_of_lt (Nat.lt_of_not_le hdup)
          | some j =>
            simp only [effectiveLMID, hl] at hdup
            exact Nat.le_of_lt (Nat.lt_of_not_le hdup)
        · rw [alistLookup_update_ne hc]

theorem effectiveLMID_consumeLoop_le (mutators : MutatorMap A V)
    (s : StorageState V) (st et : Nat) (l : List (ClientMutation A))
    (acc : LoopAcc V) (c : ClientID) :
    effectiveLMID s acc.touched c ≤
      effectiveLMID s ((consumeLoop mutators s st et l acc).1).touched c := by
  induction l generalizing acc with
  | nil => simp [consumeLoop_nil]
  | cons m rest ih =>
    by_cases hm : et ≤ m.timestamp
    · simp [consumeLoop_stop mutators s st et m rest acc hm]
    · rw [consumeLoop_consume mutators s st et m rest acc (Nat.not_le.mp hm)]
      exact Nat.le_trans (effectiveLMID_consumeStep_le mutators s st m acc c)
        (ih _)

/-! ### Commit and finish lemmas -/

theorem frameFinish_noop (clients : List ClientID) (s : StorageState V)
    (st : Nat) (acc : LoopAcc V) (rem : List (ClientMutation A))
    (h : isNoop acc = true) :
    frameFinish clients s st (acc, rem) = ⟨[], s, rem⟩ := by
  simp [frameFinish, h]

theorem frameFinish_apply (clients : List ClientID) (s : StorageState V)
    (st : Nat) (acc : LoopAcc V) (rem : List (ClientMutation A))
    (h : isNoop acc = false) :
    frameFinish clients s st (acc, rem) =
      ⟨clients.map (fun c =>
          ⟨c, ⟨s.version.getD 0, s.version.getD 0 + 1,
            (recLookup (commitConnected (s.version.getD 0 + 1) clients
              (commitTouched (s.version.getD 0 + 1) acc.touched s.clientRecords))
                c).lastMutationID,
            buildPatch acc.patch, st⟩⟩),
       ⟨some (s.version.getD 0 + 1),
        commitConnected (s.version.getD 0 + 1) clients
          (commitTouched (s.version.getD 0 + 1) acc.touched s.clientRecords),
        commitUserValues (s.version.getD 0 + 1) acc.patch s.userValues⟩,
       rem⟩ := by
  simp [frameFinish, h]

theorem frameFinish_remaining_congr (clients : List ClientID)
    (s : StorageState V) (st : Nat) (acc : LoopAcc V)
    (rem rem' : List (ClientMutation A)) :
    frameFinish clients s st (acc, rem) =
      ⟨(frameFinish clients s st (acc, rem')).pokes,
       (frameFinish clients s st (acc, rem')).state, rem⟩ := by
  by_cases h : isNoop acc
  · simp [frameFinish, h]
  · simp [frameFinish, h]

theorem frameFinish_pokes_patch (clients : List ClientID) (s : StorageState V)
    (st : Nat) (acc : LoopAcc V) (rem : List (ClientMutation A))
    (pb : ClientPokeBody V) (hpb : pb ∈ (frameFinish clients s st (acc, rem)).pokes) :
    pb.poke.patch = buildPatch acc.patch := by
  by_cases h : isNoop acc
  · rw [frameFinish_noop clients s st acc rem h] at hpb
    simp at hpb
  · rw [frameFinish_apply clients s st acc rem (Bool.eq_false_iff.mpr h)] at hpb
    simp only [List.mem_map] at hpb
    obtain ⟨c, _, rfl⟩ := hpb
    rfl

theorem buildPatch_map_key (p : List (Key × Pending V)) :
    (buildPatch p).map WriteOp.key = p.map Prod.fst := by
  induction p with
  | nil => rfl
  | cons hd tl ih =>
    obtain ⟨k, pend⟩ := hd
    cases pend with
    | put v => simpa [buildPatch, WriteOp.key] using ih
    | del => simpa [buildPatch, WriteOp.key] using ih

theorem commitUserValues_lookup_or (cookie : Version)
    (p : List (Key × Pending V)) (uv : List (Key × StoredValue V)) (k : Key)
    (sv : StoredValue V)
    (h : alistLookup k (commitUserValues cookie p uv) = some sv) :
    alistLookup k uv = some sv ∨ sv.version = cookie := by
  induction p generalizing uv with
  | nil => exact Or.inl h
  | cons hd tl ih =>
    obtain ⟨k₀, pend⟩ := hd
    cases pend with
    | put v =>
      rcases ih _ h with h' | h'
      · rw [alistLookup_update] at h'
        by_cases hk : k₀ = k
        · subst hk
          simp only [if_pos rfl] at h'
          cases h'
          exact Or.inr rfl
        · rw [if_neg hk] at h'
          exact Or.inl h'
      · exact Or.inr h'
    | del =>
      rcases ih _ h with h' | h'
      · rw [alistLookup_update] at h'
        by_cases hk : k₀ = k
        · subst hk
          simp only [if_pos rfl] at h'
          cases h'
          exact Or.inr rfl
        · rw [if_neg hk] at h'
          exact Or.inl h'
      · exact Or.inr h'

theorem commitTouched_lookup_or (cookie : Version)
    (t : List (ClientID × Nat)) (recs : List (ClientID × ClientRecord))
    (c : ClientID) (rec : ClientRecord)
    (h : alistLookup c (commitTouched cookie t recs) = some rec) :
    alistLookup c recs = some rec ∨ rec.lastVersion = some cookie := by
  induction t generalizing recs with
  | nil => exact Or.inl h
  | cons hd tl ih =>
    obtain ⟨c₀, i₀⟩ := hd
    rcases ih _ h with h' | h'
    · rw [alistLookup_update] at h'
      by_cases hc : c₀ = c
      · subst hc
        simp only [if_pos rfl] at h'
        cases h'
        exact Or.inr rfl
      · rw [if_neg hc] at h'
        exact Or.inl h'
    · exact Or.inr h'

theorem commitConnected_lookup_or (cookie : Version) (cs : List ClientID)
    (recs : List (ClientID × ClientRecord)) (c : ClientID) (rec : ClientRecord)
    (h : alistLookup c (commitConnected cookie cs recs) = some rec) :
    alistLookup c recs = some rec ∨ rec.lastVersion = some cookie := by
  induction cs generalizing recs with
  | nil => exact Or.inl h
  | cons c₀ cs ih =>
    rcases ih _ h with h' | h'
    · rw [alistLookup_update] at h'
      by_cases hc : c₀ = c
      · subst hc
        simp only [if_pos rfl] at h'
        cases h'
        exact Or.inr rfl
      · rw [if_neg hc] at h'
        exact Or.inl h'
    · exact Or.inr h'

theorem commitTouched_lookup_not_mem (cookie : Version)
    (t : List (ClientID × Nat)) (recs : List (ClientID × ClientRecord))
    (c : ClientID) (h : c ∉ t.map Prod.fst) :
    alistLookup c (commitTouched cookie t recs) = alistLookup c recs := by
  induction t generalizing recs with
  | nil => rfl
  | cons hd tl ih =>
    obtain ⟨c₀, i₀⟩ := hd
    have hc : c₀ ≠ c := by
      intro hc
      exact h (by simp [hc])
    rw [commitTouched, ih _ (by intro hmem; exact h (by simp [hmem])),
      alistLookup_update_ne hc]

theorem commitTouched_mem_keys (cookie : Version)
    (t : List (ClientID × Nat)) (recs : List (ClientID × ClientRecord))
    (c : ClientID) (h : c ∈ t.map Prod.fst) :
    ∃ rec, alistLookup c (commitTouched cookie t recs) = some rec ∧
      rec.lastVersion = some cookie := by
  induction t generalizing recs with
  | nil => simp at h
  | cons hd tl ih =>
    obtain ⟨c₀, i₀⟩ := hd
    by_cases hmem : c ∈ tl.map Prod.fst
    · exact ih _ hmem
    · have hc : c₀ = c := by
        rw [List.map_cons, List.mem_cons] at h
        rcases h with h' | h'
        · exact h'.symm
        · exact absurd h' hmem
      subst hc
      refine ⟨⟨i₀, some cookie⟩, ?_, rfl⟩
      rw [commitTouched, commitTouched_lookup_not_mem cookie tl _ c₀ hmem,
        alistLookup_update_self]

theorem commitConnected_lookup_exists (cookie : Version) (cs : List ClientID)
    (recs : List (ClientID × ClientRecord)) (c : ClientID) (rec : ClientRecord)
    (h : alistLookup c recs = some rec) :
    ∃ rec', alistLookup c (commitConnected cookie cs recs) = some rec' ∧
      (rec' = rec ∨ rec'.lastVersion = some cookie) := by
  induction cs generalizing recs rec with
  | nil => exact ⟨rec, h, Or.inl rfl⟩
  | cons c₀ cs ih =>
    by_cases hc : c₀ = c
    · subst hc
      obtain ⟨rec', h', hv⟩ := ih
        (alistUpdate c₀ { (alistLookup c₀ recs).getD ⟨0, none⟩ with
          lastVersion := some cookie } recs)
        { (alistLookup c₀ recs).getD ⟨0, none⟩ with lastVersion := some cookie }
        (alistLookup_update_self c₀ _ recs)
      refine ⟨rec', h', ?_⟩
      rcases hv with rfl | hv
      · exact Or.inr rfl
      · exact Or.inr hv
    · obtain ⟨rec', h', hv⟩ := ih
        (alistUpdate c₀ { (alistLookup c₀ recs).getD ⟨0, none⟩ with
          lastVersion := some cookie } recs) rec
        (by rw [alistLookup_update_ne hc]; exact h)
      exact ⟨rec', h', hv⟩

theorem commitConnected_LMID (cookie : Version) (cs : List ClientID)
    (recs : List (ClientID × ClientRecord)) (c : ClientID) :
    (recLookup (commitConnected cookie cs recs) c).lastMutationID =
      (recLookup recs c).lastMutationID := by
  induction cs generalizing recs with
  | nil => rfl
  | cons c₀ cs ih =>
    rw [commitConnected, ih]
    by_cases hc : c₀ = c
    · subst hc
      simp only [recLookup, alistLookup_update_self]
      cases alistLookup c₀ recs <;> rfl
    · simp only [recLookup, alistLookup_update_ne hc]

theorem list_map_fixed (f : α → α) (l : List α) (h : ∀ x, f x = x) :
    l.map f = l := by
  induction l with
  | nil => rfl
  | cons x xs ih => rw [List.map_cons, h x, ih]

theorem consumeLoop_decomp (mutators : MutatorMap A V) (s : StorageState V)
    (st et : Nat) (l : List (ClientMutation A)) (acc : LoopAcc V) :
    ∃ consumed, l = consumed ++ (consumeLoop mutators s st et l acc).2 ∧
      (∀ p ∈ consumed, p.timestamp < et) ∧
      (∀ m, (consumeLoop mutators s st et l acc).2.head? = some m →
        et ≤ m.timestamp) ∧
      consumeLoop mutators s st et consumed acc =
        ((consumeLoop mutators s st et l acc).1, []) := by
  induction l generalizing acc with
  | nil =>
    exact ⟨[], by simp [consumeLoop_nil], by simp, by simp [consumeLoop_nil],
      by simp [consumeLoop_nil]⟩
  | cons m rest ih =>
    by_cases hm : et ≤ m.timestamp
    · refine ⟨[], ?_, by simp, ?_, ?_⟩
      · simp [consumeLoop_stop mutators s st et m rest acc hm]
      · intro m' hm'
        rw [consumeLoop_stop mutators s st et m rest acc hm] at hm'
        simp only [List.head?_cons, Option.some_inj] at hm'
        exact hm' ▸ hm
      · simp [consumeLoop_stop mutators s st et m rest acc hm, consumeLoop_nil]
    · have hm' := Nat.not_le.mp hm
      obtain ⟨consumed, h1, h2, h3, h4⟩ := ih (consumeStep mutators s st m acc)
      refine ⟨m :: consumed, ?_, ?_, ?_, ?_⟩
      · rw [consumeLoop_consume mutators s st et m rest acc hm',
          List.cons_append]
        exact congrArg (m :: ·) h1
      · intro p hp
        rcases List.mem_cons.mp hp with rfl | hp
        · exact hm'
        · exact h2 p hp
      · rw [consumeLoop_consume mutators s st et m rest acc hm']
        exact h3
      · rw [consumeLoop_consume mutators s st et m consumed acc hm',
          consumeLoop_consume mutators s st et m rest acc hm']
        exact h4

/-! ### Claim theorems -/

/-- C3: for every frame in which zero mutations are applied (the drain
loop produced an empty patch map and touched no client record), the
processor performs no storage writes at all — the returned state is the
input state unchanged — and it returns an empty poke list, regardless of
the connected clients. -/
theorem noop_frame_no_writes (mutators : MutatorMap A V)
    (clients : List ClientID) (s : StorageState V)
    (muts rem : List (ClientMutation A)) (st et : Nat)
    (h : consumeLoop mutators s st et muts ⟨[], []⟩ = (⟨[], []⟩, rem)) :
    processFrame mutators clients s muts st et = ⟨[], s, rem⟩ := by
  rw [processFrame, h]
  exact frameFinish_noop clients s st _ rem rfl

/-- C5: a consumed mutation whose timestamp is below `startTime` is
skipped with no effect: the frame's result (pokes, state and remaining
source) is identical to the frame run without that mutation; in
particular nothing is applied, no patch entry appears and no client
record advances, and processing continues normally. -/
theorem staleness_skip_no_effect (mutators : MutatorMap A V)
    (clients : List ClientID) (s : StorageState V)
    (pre post : List (ClientMutation A)) (m : ClientMutation A) (st et : Nat)
    (hpre : ∀ p ∈ pre, p.timestamp < et) (hstale : m.timestamp < st)
    (hwin : m.timestamp < et) :
    processFrame mutators clients s (pre ++ m :: post) st et =
      processFrame mutators clients s (pre ++ post) st et := by
  unfold processFrame
  rw [consumeLoop_append mutators s st et pre (m :: post) _ hpre,
    consumeLoop_append mutators s st et pre post _ hpre,
    consumeLoop_consume mutators s st et m post _ hwin,
    consumeStep_stale mutators s st m _ hstale]

/-- C1: idempotency.  A consumed mutation whose id is at most the
client's stored `lastMutationID` is skipped with no effect (the frame
equals the frame without it); a second in-frame occurrence of the same
mutation is likewise skipped (the frame with the mutation twice equals
the frame with it once), so each `(clientID, mutationID)` pair takes
effect at most once ever; and the frame's patch never holds duplicate
entries for a key. -/
theorem idempotent_duplicate_skip (mutators : MutatorMap A V)
    (clients : List ClientID) (s : StorageState V)
    (pre post : List (ClientMutation A)) (m : ClientMutation A) (st et : Nat)
    (hpre : ∀ p ∈ pre, p.timestamp < et) (hm : m.timestamp < et) :
    (m.id ≤ (recLookup s.clientRecords m.clientID).lastMutationID →
      processFrame mutators clients s (pre ++ m :: post) st et =
        processFrame mutators clients s (pre ++ post) st et) ∧
    processFrame mutators clients s (pre ++ m :: m :: post) st et =
      processFrame mutators clients s (pre ++ m :: post) st et ∧
    ∀ pb ∈ (processFrame mutators clients s (pre ++ m :: m :: post) st et).pokes,
      (pb.poke.patch.map WriteOp.key).Nodup := by
  refine ⟨?_, ?_, ?_⟩
  · intro hdup
    unfold processFrame
    rw [consumeLoop_append mutators s st et pre (m :: post) _ hpre,
      consumeLoop_append mutators s st et pre post _ hpre,
      consumeLoop_consume mutators s st et m post _ hm]
    have hbase : effectiveLMID s (LoopAcc.touched (V := V) ⟨[], []⟩) m.clientID =
        (recLookup s.clientRecords m.clientID).lastMutationID := by
      simp [effectiveLMID, alistLookup, recLookup]
    have hle : m.id ≤ effectiveLMID s
        ((consumeLoop mutators s st et pre ⟨[], []⟩).1).touched m.clientID :=
      Nat.le_trans (hbase ▸ hdup)
        (effectiveLMID_consumeLoop_le mutators s st et pre ⟨[], []⟩ m.clientID)
    rw [consumeStep_dup mutators s st m _ hle]
  · unfold processFrame
    rw [consumeLoop_append mutators s st et pre (m :: m :: post) _ hpre,
      consumeLoop_append mutators s st et pre (m :: post) _ hpre,
      consumeLoop_consume mutators s st et m (m :: post) _ hm,
      consumeLoop_consume mutators s st et m post _ hm,
      consumeLoop_consume mutators s st et m post _ hm,
      consumeStep_idem mutators s st m _]
  · intro pb hpb
    rcases hout : consumeLoop mutators s st et (pre ++ m :: m :: post)
      ⟨[], []⟩ with ⟨acc, rem⟩
    rw [processFrame, hout] at hpb
    rw [frameFinish_pokes_patch clients s st acc rem pb hpb, buildPatch_map_key]
    have := consumeLoop_patch_nodup mutators s st et (pre ++ m :: m :: post)
      ⟨[], []⟩ (by simp)
    rw [hout] at this
    exact this

/-- C4: windowing.  The frame consumes exactly a prefix of the source all
of whose timestamps are below `endTime`; the first too-new mutation
(timestamp at or past `endTime`) stops the loop without being consumed,
the entire un-consumed suffix is returned for a subsequent frame, and the
frame's pokes and state are exactly those computed from the consumed
prefix alone, so the un-consumed mutations are reflected nowhere. -/
theorem windowing_not_consumed (mutators : MutatorMap A V)
    (clients : List ClientID) (s : StorageState V)
    (muts : List (ClientMutation A)) (st et : Nat) :
    ∃ consumed,
      muts = consumed ++ (processFrame mutators clients s muts st et).remaining ∧
      (∀ p ∈ consumed, p.timestamp < et) ∧
      (∀ m, (processFrame mutators clients s muts st et).remaining.head? =
        some m → et ≤ m.timestamp) ∧
      processFrame mutators clients s consumed st et =
        ⟨(processFrame mutators clients s muts st et).pokes,
         (processFrame mutators clients s muts st et).state, []⟩ := by
  obtain ⟨consumed, h1, h2, h3, h4⟩ :=
    consumeLoop_decomp mutators s st et muts ⟨[], []⟩
  rcases hout : consumeLoop mutators s st et muts ⟨[], []⟩ with ⟨acc, rem⟩
  rw [hout] at h1 h3 h4
  have hrem : (processFrame mutators clients s muts st et).remaining = rem := by
    rw [processFrame, hout,
      frameFinish_remaining_congr clients s st acc rem rem]
  refine ⟨consumed, ?_, h2, ?_, ?_⟩
  · rw [hrem]; exact h1
  · rw [hrem]; exact h3
  · rw [processFrame, processFrame, hout, h4,
      frameFinish_remaining_congr clients s st acc [] rem]

/-- C2: GlobalVersion monotonicity and single advance.  Over a frame the
stored version never decreases; it is either unchanged or advanced
exactly once to `cookie = baseCookie + 1`; it is unchanged (along with
the whole state) exactly when no mutation was applied, and when at least
one was applied the version becomes `cookie`, every user value written by
the frame carries `version = cookie`, every client record written by the
frame carries `lastVersion = cookie`, and in particular every touched
client ends with a record whose `lastVersion = cookie`. -/
theorem version_single_advance (mutators : MutatorMap A V)
    (clients : List ClientID) (s : StorageState V)
    (muts : List (ClientMutation A)) (st et : Nat) :
    s.version.getD 0 ≤
      (processFrame mutators clients s muts st et).state.version.getD 0 ∧
    ((processFrame mutators clients s muts st et).state.version = s.version ∨
      (processFrame mutators clients s muts st et).state.version =
        some (s.version.getD 0 + 1)) ∧
    (isNoop (consumeLoop mutators s st et muts ⟨[], []⟩).1 = true →
      (processFrame mutators clients s muts st et).state = s) ∧
    (isNoop (consumeLoop mutators s st et muts ⟨[], []⟩).1 = false →
      (processFrame mutators clients s muts st et).state.version =
        some (s.version.getD 0 + 1) ∧
      (∀ k sv, alistLookup k
          (processFrame mutators clients s muts st et).state.userValues =
            some sv →
        alistLookup k s.userValues = some sv ∨
          sv.version = s.version.getD 0 + 1) ∧
      (∀ c rec, alistLookup c
          (processFrame mutators clients s muts st et).state.clientRecords =
            some rec →
        alistLookup c s.clientRecords = some rec ∨
          rec.lastVersion = some (s.version.getD 0 + 1)) ∧
      (∀ c, c ∈ ((consumeLoop mutators s st et muts ⟨[], []⟩).1).touched.map
          Prod.fst →
        ∃ rec, alistLookup c
            (processFrame mutators clients s muts st et).state.clientRecords =
              some rec ∧
          rec.lastVersion = some (s.version.getD 0 + 1))) := by
  rcases hout : consumeLoop mutators s st et muts ⟨[], []⟩ with ⟨acc, rem⟩
  by_cases hnoop : isNoop acc
  · have hstate : processFrame mutators clients s muts st et = ⟨[], s, rem⟩ := by
      rw [processFrame, hout]
      exact frameFinish_noop clients s st acc rem hnoop
    refine ⟨by rw [hstate], Or.inl (by rw [hstate]), fun _ => by rw [hstate],
      fun hfalse => ?_⟩
    have : isNoop acc = false := hfalse
    rw [hnoop] at this
    cases this
  · have hnoop' : isNoop acc = false := Bool.eq_false_iff.mpr hnoop
    have hstate := frameFinish_apply clients s st acc rem hnoop'
    have hpf : processFrame mutators clients s muts st et =
        frameFinish clients s st (acc, rem) := by rw [processFrame, hout]
    rw [hstate] at hpf
    refine ⟨?_, Or.inr (by rw [hpf]), ?_, fun _ => ⟨by rw [hpf], ?_, ?_, ?_⟩⟩
    · rw [hpf]
      exact Nat.le_succ _
    · intro htrue
      have : isNoop acc = true := htrue
      rw [hnoop'] at this
      cases this
    · intro k sv hsv
      rw [hpf] at hsv
      exact commitUserValues_lookup_or _ acc.patch s.userValues k sv hsv
    · intro c rec hrec
      rw [hpf] at hrec
      rcases commitConnected_lookup_or _ clients _ c rec hrec with h' | h'
      · exact commitTouched_lookup_or _ acc.touched s.clientRecords c rec h'
      · exact Or.inr h'
    · intro c hc
      have hc' : c ∈ acc.touched.map Prod.fst := hc
      obtain ⟨rec₁, hrec₁, hv₁⟩ := commitTouched_mem_keys
        (s.version.getD 0 + 1) acc.touched s.clientRecords c hc'
      obtain ⟨rec₂, hrec₂, hv₂⟩ := commitConnected_lookup_exists
        (s.version.getD 0 + 1) clients _ c rec₁ hrec₁
      refine ⟨rec₂, by rw [hpf]; exact hrec₂, ?_⟩
      rcases hv₂ with rfl | hv₂
      · exact hv₁
      · exact hv₂

/-- C7: fan-out.  When the frame applied at least one mutation, every
connected client receives exactly one poke (in the order of the
connected-clients list), all pokes share the same `baseCookie`, `cookie`,
patch and `timestamp = startTime`, and each poke's `lastMutationID` is
exactly that client's post-frame stored `lastMutationID`. -/
theorem fanout_identical_pokes (mutators : MutatorMap A V)
    (clients : List ClientID) (s : StorageState V)
    (muts : List (ClientMutation A)) (st et : Nat)
    (happ : isNoop (consumeLoop mutators s st et muts ⟨[], []⟩).1 = false) :
    (processFrame mutators clients s muts st et).pokes.map
      ClientPokeBody.clientID = clients ∧
    ∃ sharedPatch, ∀ pb ∈ (processFrame mutators clients s muts st et).pokes,
      pb.poke.baseCookie = s.version.getD 0 ∧
      pb.poke.cookie = s.version.getD 0 + 1 ∧
      pb.poke.timestamp = st ∧
      pb.poke.patch = sharedPatch ∧
      pb.poke.lastMutationID =
        (recLookup (processFrame mutators clients s muts st
          et).state.clientRecords pb.clientID).lastMutationID := by
  rcases hout : consumeLoop mutators s st et muts ⟨[], []⟩ with ⟨acc, rem⟩
  rw [hout] at happ
  have happ' : isNoop acc = false := happ
  have hpf : processFrame mutators clients s muts st et =
      frameFinish clients s st (acc, rem) := by rw [processFrame, hout]
  rw [frameFinish_apply clients s st acc rem happ'] at hpf
  constructor
  · rw [hpf]
    simp only [List.map_map]
    exact list_map_fixed _ clients (fun x => rfl)
  · refine ⟨buildPatch acc.patch, ?_⟩
    intro pb hpb
    rw [hpf] at hpb
    simp only [List.mem_map] at hpb
    obtain ⟨c, _, rfl⟩ := hpb
    refine ⟨rfl, rfl, rfl, rfl, ?_⟩
    rw [hpf]

theorem putRun_loop (s : StorageState V) (c : ClientID) (k : Key)
    (st et : Nat) (l : List (Nat × V × Nat)) (j : Nat) (w : V)
    (hts : ∀ x ∈ l, st ≤ x.2.2 ∧ x.2.2 < et)
    (hchain : List.Chain (· < ·) j (l.map (·.1))) :
    consumeLoop testMutators s st et (putRun c k l)
        ⟨[(k, .put w)], [(c, j)]⟩ =
      (⟨[(k, .put ((l.map (·.2.1)).getLastD w))],
        [(c, (l.map (·.1)).getLastD j)]⟩, []) := by
  induction l generalizing j w with
  | nil => simp [putRun, consumeLoop_nil]
  | cons x rest ih =>
    obtain ⟨i, v, t⟩ := x
    obtain ⟨hst, het⟩ := hts (i, v, t) (by simp)
    rw [List.map_cons, List.chain_cons] at hchain
    obtain ⟨hji, hchain'⟩ := hchain
    rw [putRun, consumeLoop_consume testMutators s st et _ _ _ het]
    have hstep : consumeStep testMutators s st (putMutation c i k v t)
        ⟨[(k, .put w)], [(c, j)]⟩ = ⟨[(k, .put v)], [(c, i)]⟩ := by
      unfold consumeStep putMutation
      simp only []
      rw [if_neg (Nat.not_lt.mpr hst)]
      have heff : effectiveLMID s [(c, j)] c = j := by
        simp [effectiveLMID, alistLookup]
      rw [heff, if_neg (Nat.not_le.mpr hji)]
      have hreg : alistLookup "put" (testMutators (V := V)) = some putMutator := by
        simp [testMutators, alistLookup]
      rw [hreg]
      simp [putMutator, applyWrites, alistUpdate]
    rw [hstep, ih i v (fun x hx => hts x (by simp [hx])) hchain']
    rw [List.map_cons, List.map_cons, List.getLastD_cons, List.getLastD_cons]

/-- C6: coalescing.  A nonempty run of `put` mutations from one client to
one key, all inside the frame window and with strictly ascending ids
starting above the client's stored `lastMutationID`, yields a frame patch
with exactly one entry for that key holding the last write's value
(last-write-wins in processing order); the stored user value equals that
last value stamped with the frame's cookie; the client's stored record
ends at the highest applied mutation id; and every emitted poke carries
that singleton patch. -/
theorem coalescing_last_write_wins (clients : List ClientID)
    (s : StorageState V) (c : ClientID) (k : Key)
    (x : Nat × V × Nat) (rest : List (Nat × V × Nat)) (st et : Nat)
    (hts : ∀ y ∈ x :: rest, st ≤ y.2.2 ∧ y.2.2 < et)
    (hchain : List.Chain (· < ·) (recLookup s.clientRecords c).lastMutationID
      ((x :: rest).map (·.1))) :
    buildPatch ((consumeLoop testMutators s st et (putRun c k (x :: rest))
        ⟨[], []⟩).1).patch =
      [.put k ((rest.map (·.2.1)).getLastD x.2.1)] ∧
    alistLookup k (processFrame testMutators clients s (putRun c k (x :: rest))
        st et).state.userValues =
      some (.live ((rest.map (·.2.1)).getLastD x.2.1) (s.version.getD 0 + 1)) ∧
    (recLookup (processFrame testMutators clients s (putRun c k (x :: rest))
        st et).state.clientRecords c).lastMutationID =
      (rest.map (·.1)).getLastD x.1 ∧
    ∀ pb ∈ (processFrame testMutators clients s (putRun c k (x :: rest))
        st et).pokes,
      pb.poke.patch = [.put k ((rest.map (·.2.1)).getLastD x.2.1)] := by
  obtain ⟨i, v, t⟩ := x
  obtain ⟨hst, het⟩ := hts (i, v, t) (by simp)
  rw [List.map_cons, List.chain_cons] at hchain
  obtain ⟨hji, hchain'⟩ := hchain
  have hstep : consumeStep testMutators s st (putMutation c i k v t)
      (⟨[], []⟩ : LoopAcc V) = ⟨[(k, .put v)], [(c, i)]⟩ := by
    unfold consumeStep putMutation
    simp only []
    rw [if_neg (Nat.not_lt.mpr hst)]
    have heff : effectiveLMID s (LoopAcc.touched (V := V) ⟨[], []⟩) c =
        (recLookup s.clientRecords c).lastMutationID := by
      simp [effectiveLMID, alistLookup, recLookup]
    rw [heff, if_neg (Nat.not_le.mpr hji)]
    have hreg : alistLookup "put" (testMutators (V := V)) = some putMutator := by
      simp [testMutators, alistLookup]
    rw [hreg]
    simp [putMutator, applyWrites, alistUpdate]
  have hloop : consumeLoop testMutators s st et (putRun c k ((i, v, t) :: rest))
      ⟨[], []⟩ =
      (⟨[(k, .put ((rest.map (·.2.1)).getLastD v))],
        [(c, (rest.map (·.1)).getLastD i)]⟩, []) := by
    rw [putRun, consumeLoop_consume testMutators s st et _ _ _ het, hstep,
      putRun_loop s c k st et rest i v (fun y hy => hts y (by simp [hy]))
        hchain']
  have hnoop : isNoop (⟨[(k, .put ((rest.map (·.2.1)).getLastD v))],
      [(c, (rest.map (·.1)).getLastD i)]⟩ : LoopAcc V) = false := rfl
  have hpf : processFrame testMutators clients s (putRun c k ((i, v, t) :: rest))
      st et =
      frameFinish clients s st
        ((⟨[(k, .put ((rest.map (·.2.1)).getLastD v))],
          [(c, (rest.map (·.1)).getLastD i)]⟩ : LoopAcc V), []) := by
    rw [processFrame, hloop]
  rw [frameFinish_apply clients s st _ [] hnoop] at hpf
  refine ⟨by rw [hloop]; rfl, ?_, ?_, ?_⟩
  · rw [hpf]
    simp only [commitUserValues]
    rw [alistLookup_update_self]
  · rw [hpf]
    simp only []
    rw [commitConnected_LMID]
    have : commitTouched (s.version.getD 0 + 1)
        [(c, (rest.map (·.1)).getLastD i)] s.clientRecords =
        alistUpdate c ⟨(rest.map (·.1)).getLastD i,
          some (s.version.getD 0 + 1)⟩ s.clientRecords := rfl
    rw [this]
    simp [recLookup, alistLookup_update_self]
  · intro pb hpb
    have hpatch : pb.poke.patch = buildPatch
        ((⟨[(k, .put ((rest.map (·.2.1)).getLastD v))],
          [(c, (rest.map (·.1)).getLastD i)]⟩ : LoopAcc V)).patch := by
      refine frameFinish_pokes_patch clients s st _
        ([] : List (ClientMutation (MArgs V))) pb ?_
      rw [processFrame, hloop] at hpb
      exact hpb
    rw [hpatch]
    rfl

/-- C8: transaction atomicity and error propagation
(`src/backend/db.ts:65-78`).  If the transaction body throws, the
transaction rolls back — the committed state is exactly the state from
before the transaction, so no partial writes are observable — and the
original thrown error is re-thrown unchanged; if the body returns
normally the transaction commits the body's final state and the body's
result is returned. -/
theorem transact_rollback_rethrow (body : S → Except E (R × S))
    (c : PgConn S) :
    (∀ e, body c.committed = .error e →
      transactWithExecutor body c = (.error e, ⟨c.committed, none⟩)) ∧
    (∀ r s', body c.committed = .ok (r, s') →
      transactWithExecutor body c = (.ok r, ⟨s', none⟩)) := by
  constructor
  · intro e he
    simp [transactWithExecutor, he, beginTxn, rollbackTxn]
  · intro r s' hok
    simp [transactWithExecutor, hok, beginTxn, commitTxn]

/-- C10: the scoped executor of `withExecutor`
(`src/backend/db.ts:34-42`) never lets the original failure object
escape: whenever the underlying query fails, the executor throws a newly
constructed `Error` whose message embeds the SQL text and the stringified
original failure, and its result is never the original thrown value
itself. -/
theorem executor_wraps_sql_errors (query : String → P → Except (Thrown E) QR)
    (errToString : Thrown E → String) (sql : String) (params : P) :
    (∀ e, query sql params = .error e →
      executor query errToString sql params =
        .error (.wrapped ("Error executing SQL: " ++ sql ++ ": " ++
          errToString e))) ∧
    (∀ e₀, executor query errToString sql params ≠ .error (.original e₀)) := by
  constructor
  · intro e he
    simp [executor, he]
  · intro e₀ hcontra
    unfold executor at hcontra
    cases hq : query sql params with
    | ok r => rw [hq] at hcontra; cases hcontra
    | error e => rw [hq] at hcontra; simp at hcontra

/-! ### Witnesses: each claim theorem applied at a concrete input from the
in-repo `processFrame` test data. -/

/-- Witness for C1 at the test store: submitting `put(foo,bar)` from `c1`
with id 2 twice in one frame equals submitting it once. -/
theorem idempotent_duplicate_skip_witness :
    (putMutation "c1" 2 "foo" ("bar" : String) 150).timestamp < 200 ∧
    processFrame testMutators ["c1"] testState
        ([] ++ putMutation "c1" 2 "foo" "bar" 150 ::
          putMutation "c1" 2 "foo" "bar" 150 :: []) 100 200 =
      processFrame testMutators ["c1"] testState
        ([] ++ putMutation "c1" 2 "foo" "bar" 150 :: []) 100 200 :=
  ⟨by decide,
    (idempotent_duplicate_skip testMutators ["c1"] testState [] []
      (putMutation "c1" 2 "foo" "bar" 150) 100 200 (by simp)
      (by decide)).2.1⟩

/-- Witness for C2 at the test store with one applied mutation: the
stored version does not decrease. -/
theorem version_single_advance_witness :
    testState.version.getD 0 ≤
      (processFrame testMutators ["c1"] testState
        [putMutation "c1" 2 "foo" "bar" 150] 100 200).state.version.getD 0 :=
  (version_single_advance testMutators ["c1"] testState
    [putMutation "c1" 2 "foo" "bar" 150] 100 200).1

/-- Witness for C3: a frame that consumes only a stale mutation applies
nothing and, with two clients connected, writes nothing and pokes
nobody. -/
theorem noop_frame_no_writes_witness :
    consumeLoop testMutators testState 100 200
        [putMutation "c1" 5 "foo" ("bar" : String) 50] ⟨[], []⟩ =
      (⟨[], []⟩, []) ∧
    processFrame testMutators ["c1", "c2"] testState
        [putMutation "c1" 5 "foo" "bar" 50] 100 200 =
      ⟨[], testState, []⟩ :=
  ⟨rfl,
    noop_frame_no_writes testMutators ["c1", "c2"] testState
      [putMutation "c1" 5 "foo" "bar" 50] [] 100 200 rfl⟩

/-- Witness for C4 at the frame-cutoff test input: the too-new mutation
at timestamp 250 is left un-consumed and reflected nowhere. -/
theorem windowing_not_consumed_witness :
    ∃ consumed,
      [putMutation "c1" 4 "foo" ("bonk" : String) 250] = consumed ++
        (processFrame testMutators ["c1"] testState
          [putMutation "c1" 4 "foo" "bonk" 250] 100 200).remaining ∧
      (∀ p ∈ consumed, p.timestamp < 200) ∧
      (∀ m, (processFrame testMutators ["c1"] testState
          [putMutation "c1" 4 "foo" "bonk" 250] 100 200).remaining.head? =
        some m → 200 ≤ m.timestamp) ∧
      processFrame testMutators ["c1"] testState consumed 100 200 =
        ⟨(processFrame testMutators ["c1"] testState
            [putMutation "c1" 4 "foo" "bonk" 250] 100 200).pokes,
         (processFrame testMutators ["c1"] testState
            [putMutation "c1" 4 "foo" "bonk" 250] 100 200).state, []⟩ :=
  windowing_not_consumed testMutators ["c1"] testState
    [putMutation "c1" 4 "foo" "bonk" 250] 100 200

/-- Witness for C5 at the frame-cutoff test input: the stale mutation at
timestamp 50 leaves the frame's entire outcome unchanged. -/
theorem staleness_skip_no_effect_witness :
    ((putMutation "c1" 2 "foo" ("bar" : String) 50).timestamp < 100 ∧
      (putMutation "c1" 2 "foo" ("bar" : String) 50).timestamp < 200) ∧
    processFrame testMutators ["c1"] testState
        ([] ++ putMutation "c1" 2 "foo" "bar" 50 ::
          putMutation "c1" 3 "foo" "baz" 150 :: []) 100 200 =
      processFrame testMutators ["c1"] testState
        ([] ++ putMutation "c1" 3 "foo" "baz" 150 :: []) 100 200 :=
  ⟨⟨by decide, by decide⟩,
    staleness_skip_no_effect testMutators ["c1"] testState []
      [putMutation "c1" 3 "foo" "baz" 150]
      (putMutation "c1" 2 "foo" "bar" 50) 100 200 (by simp) (by decide)
      (by decide)⟩

/-- Witness for C6 at the two-mutations-one-key test input: `put(foo,bar)`
id 2 then `put(foo,baz)` id 3 store `baz` at version 2 and advance `c1`'s
record to 3. -/
theorem coalescing_last_write_wins_witness :
    (∀ y ∈ [((2 : Nat), ("bar" : String), (150 : Nat)), (3, "baz", 150)],
      100 ≤ y.2.2 ∧ y.2.2 < 200) ∧
    (List.Chain (· < ·) (recLookup testState.clientRecords "c1").lastMutationID
      ((((2 : Nat), ("bar" : String), (150 : Nat)) ::
        [(3, "baz", 150)]).map (·.1))) ∧
    alistLookup "foo" (processFrame testMutators ["c1"] testState
        (putRun "c1" "foo" ((2, "bar", 150) :: [(3, "baz", 150)]))
        100 200).state.userValues = some (.live "baz" 2) :=
  ⟨by decide,
    by norm_num [List.chain_cons, recLookup, testState, alistLookup],
    (coalescing_last_write_wins ["c1"] testState "c1" "foo" (2, "bar", 150)
      [(3, "baz", 150)] 100 200 (by decide)
      (by norm_num [List.chain_cons, recLookup, testState, alistLookup])).2.1⟩

/-- Witness for C7 at the one-mutation-two-clients test input: both
connected clients are poked, in order. -/
theorem fanout_identical_pokes_witness :
    isNoop (consumeLoop testMutators testState 100 200
        [putMutation "c1" 2 "foo" ("bar" : String) 150] ⟨[], []⟩).1 = false ∧
    (processFrame testMutators ["c1", "c2"] testState
        [putMutation "c1" 2 "foo" "bar" 150] 100 200).pokes.map
      ClientPokeBody.clientID = ["c1", "c2"] :=
  ⟨rfl,
    (fanout_identical_pokes testMutators ["c1", "c2"] testState
      [putMutation "c1" 2 "foo" "bar" 150] 100 200 rfl).1⟩

/-- Witness for C8: a body that throws `"boom"` over committed state `5`
rolls back (committed state still `5`) and re-throws `"boom"`. -/
theorem transact_rollback_rethrow_witness :
    (fun (_ : Nat) => (Except.error "boom" : Except String (Nat × Nat)))
        (PgConn.committed ⟨5, none⟩) = Except.error "boom" ∧
    transactWithExecutor
        (fun (_ : Nat) => (Except.error "boom" : Except String (Nat × Nat)))
        ⟨5, none⟩ =
      (Except.error "boom", ⟨5, none⟩) :=
  ⟨rfl,
    (transact_rollback_rethrow
      (fun (_ : Nat) => (Except.error "boom" : Except String (Nat × Nat)))
      ⟨5, none⟩).1 "boom" rfl⟩

/-- Witness for C10: a query that throws the original failure object `0`
makes the executor throw a fresh wrapped `Error` embedding the SQL text
and the stringified failure. -/
theorem executor_wraps_sql_errors_witness :
    (fun (_ : String) (_ : Unit) =>
        (Except.error (.original 0) : Except (Thrown Nat) Nat)) "select 1" () =
      Except.error (.original 0) ∧
    executor
        (fun (_ : String) (_ : Unit) =>
          (Except.error (.original 0) : Except (Thrown Nat) Nat))
        (fun _ => "oops") "select 1" () =
      Except.error (.wrapped ("Error executing SQL: " ++ "select 1" ++ ": " ++
        "oops")) :=
  ⟨rfl,
    (executor_wraps_sql_errors
      (fun (_ : String) (_ : Unit) =>
        (Except.error (.original 0) : Except (Thrown Nat) Nat))
      (fun _ => "oops") "select 1" ()).1 (.original 0) rfl⟩

end Replidraw
